import Mathlib

/-!
Verification of the combinatorial core of the `pactole` repository.

The definitions below are a shallow embedding of
`src/pactole/combinations/combination.py` and
`src/pactole/combinations/lottery_combination.py`.

Modelling conventions:
- Python `int` is modelled by `Int` (arbitrary precision in both worlds);
  loop state that is provably non-negative is modelled by `Nat`.
- Python functions that can raise are modelled with `Option` (`none` = raise).
- Python `set[int]` is modelled by `Finset Int`; `sorted(...)` on a list is
  `List.insertionSort (· ≤ ·)` (`sortInts`), and `sorted(...)` on a set is
  the same sort lifted to the underlying multiset (`msortInts`), so that all
  definitions evaluate inside the kernel.
- `while` loops are modelled by tail recursion; the first loop of
  `get_combination_from_rank` uses a fuel argument (`rank + 1` suffices
  because the loop variable `b` strictly increases on every iteration),
  and the inner loop recurses on `val`, which the loop body decrements.
- Component names (Python `str` keys) are modelled by `Nat`; only equality
  of names is ever used by the code.
-/

namespace Pactole

/-- Model of `comb = cache(math_comb)` (combination.py line 21).
`math.comb(n, k)` raises `ValueError` when either argument is negative and
returns 0 when `k > n`; the `cache` wrapper does not change the mapping. -/
def comb (n k : Int) : Option Nat :=
  if n < 0 ∨ k < 0 then none else some (Nat.choose n.toNat k.toNat)

/-- The per-element accumulation loop of `get_combination_rank`
(combination.py lines 60-69): `value -= offset`; skip when `value == index`,
otherwise add `comb(value, index + 1)`.  The `index` argument is the value of
`enumerate`'s counter at the head of the list. -/
def rankFold (offset : Int) : Nat → List Int → Option Int
  | _, [] => some 0
  | index, value :: rest =>
    let value := value - offset
    if value = (index : Int) then rankFold offset (index + 1) rest
    else do
      let c ← comb value ((index : Int) + 1)
      let r ← rankFold offset (index + 1) rest
      some ((c : Int) + r)

/-- Model of `sorted` on a list of Python ints.  Any sort by `≤` computes the
same function on `List Int` (the `≤`-sorted permutation of a list of integers
is unique); `List.insertionSort` is used because it is structurally recursive
and therefore evaluates inside the kernel. -/
def sortInts (l : List Int) : List Int := l.insertionSort (· ≤ ·)

/-- Model of `get_combination_rank` (combination.py lines 42-69). -/
def get_combination_rank (combination : List Int) (offset : Int := 0) : Option Int :=
  rankFold offset 0 (sortInts combination)

/-- First `while` loop of `get_combination_from_rank`
(combination.py lines 108-114): grow `val` while `b <= rank`, keeping the
previous `b` in `binomial`.  `fuel` bounds the number of iterations; the
top-level call passes `rank + 1`, which is enough because `b` strictly
increases on every iteration of the source loop. -/
def growVal (r L : Nat) : Nat → Nat → Nat → Nat → Nat × Nat
  | 0, val, binomial, _ => (val, binomial)
  | fuel + 1, val, binomial, b =>
    if b ≤ r then growVal r L fuel (val + 1) b ((b * (val + 1 + L)) / (val + 1))
    else (val, binomial)

/-- Inner `while` loop of `get_combination_from_rank`
(combination.py lines 121-123): while `binomial > rank`, decrement `val` and
set `binomial = (binomial * val) // (val + index)` (with the decremented
`val`).  Recursion is on `val`, which the loop body decrements; when
`val = 0` the source loop has already terminated (there `binomial = 0`). -/
def shrinkVal (r idx : Nat) : Nat → Nat → Nat × Nat
  | 0, binomial => (0, binomial)
  | v + 1, binomial =>
    if r < binomial then shrinkVal r idx v ((binomial * v) / (v + idx))
    else (v + 1, binomial)

/-- The `for index in range(length - 1, 1, -1)` loop together with the two
final assignments of `get_combination_from_rank` (combination.py lines
116-126).  `idx` is the current loop index; the list returned holds the
entries of `combination` at positions `0 .. idx` in ascending position
order.  The case `idx = 0` is never reached from the top-level call (which
starts at `idx = length - 1 ≥ 1`). -/
def peel (offset : Int) : Nat → Nat → Nat → Nat → List Int
  | r, _, _, 0 => [(r : Int) + offset]
  | r, binomial, val, 1 =>
    [((r - binomial : Nat) : Int) + offset, ((val + 1 : Nat) : Int) + offset]
  | r, binomial, val, idx + 2 =>
    let r' := r - binomial
    let binomial' := (binomial * (idx + 2 + 1)) / (val + (idx + 2))
    let entry : Int := ((val + (idx + 2) : Nat) : Int) + offset
    let vb := shrinkVal r' (idx + 2) val binomial'
    peel offset r' vb.2 vb.1 (idx + 1) ++ [entry]

/-- Model of `get_combination_from_rank` (combination.py lines 72-128). -/
def get_combination_from_rank (rank : Int) (length : Int := 2) (offset : Int := 0) :
    Option (List Int) :=
  if rank < 0 then none
  else if length < 0 then none
  else if length = 0 then some []
  else if length = 1 then some [rank + offset]
  else
    let r := rank.toNat
    let L := length.toNat
    let vb := growVal r L (r + 1) 0 0 1
    some (peel offset r vb.2 vb.1 (L - 1))

/-- Specification-side formula of §4.1 of the spec: the combinatorial number
system value of a list of digits, `Σ C(dᵢ, i + 1)` where `i` is the 0-based
position and the head sits at position `j`. -/
def specRankSum : Nat → List Nat → Nat
  | _, [] => 0
  | j, d :: rest => Nat.choose d (j + 1) + specRankSum (j + 1) rest

/-- Turn a list of combinatorial digits into combination values by adding
the offset to each. -/
def withOffset (offset : Int) (ds : List Nat) : List Int :=
  ds.map (fun (d : Nat) => (d : Int) + offset)

section ChooseIdentities

lemma choose_symm_add (v L : Nat) : Nat.choose (v + L) v = Nat.choose (v + L) L := by
  have h := Nat.choose_symm (n := v + L) (k := L) (Nat.le_add_left L v)
  simpa [Nat.add_sub_cancel] using h

lemma choose_grow_step (v L : Nat) :
    Nat.choose (v + L) L * (v + 1 + L) / (v + 1) = Nat.choose (v + 1 + L) L := by
  have h := Nat.succ_mul_choose_eq (v + L) v
  rw [choose_symm_add] at h
  have h2 : Nat.choose (v + L + 1) (v + 1) = Nat.choose (v + L + 1) L := by
    have := Nat.choose_symm (n := v + L + 1) (k := v + 1) (by omega)
    have e : v + L + 1 - (v + 1) = L := by omega
    rw [e] at this
    exact this.symm
  have h3 : Nat.choose (v + L) L * (v + 1 + L) = Nat.choose (v + 1 + L) L * (v + 1) := by
    have e1 : v + 1 + L = v + L + 1 := by omega
    rw [e1]
    calc Nat.choose (v + L) L * (v + L + 1)
        = Nat.succ (v + L) * Nat.choose (v + L) L := by
          rw [Nat.succ_eq_add_one, Nat.mul_comm]
      _ = Nat.choose (v + L + 1) (v + 1) * (v + 1) := by
          simpa [Nat.succ_eq_add_one] using h
      _ = Nat.choose (v + L + 1) L * (v + 1) := by rw [h2]
  rw [h3, Nat.mul_div_cancel _ (Nat.succ_pos v)]

lemma choose_peel_step (m I : Nat) (hm : 1 ≤ m) :
    Nat.choose m (I + 1) * (I + 1) / m = Nat.choose (m - 1) I := by
  have h := Nat.succ_mul_choose_eq (m - 1) I
  have e : Nat.succ (m - 1) = m := by omega
  rw [e] at h
  rw [← h, Nat.mul_comm m, Nat.mul_div_cancel _ (by omega : 0 < m)]

lemma choose_shrink_step (v idx : Nat) (hidx : 1 ≤ idx) :
    Nat.choose (v + idx) idx * v / (v + idx) = Nat.choose (v + idx - 1) idx := by
  rcases Nat.eq_zero_or_pos v with hv | hv
  · subst hv
    simp [Nat.choose_eq_zero_of_lt (show idx - 1 < idx by omega)]
  · have h1 : Nat.choose (v + idx) idx * (v + idx - idx) =
        Nat.choose (v + idx) (idx + 1) * (idx + 1) := (Nat.choose_succ_right_eq _ _).symm
    have h2 := Nat.succ_mul_choose_eq (v + idx - 1) idx
    have e : Nat.succ (v + idx - 1) = v + idx := by omega
    rw [e] at h2
    have e2 : v + idx - idx = v := by omega
    rw [e2] at h1
    rw [h1, ← h2, Nat.mul_comm (v + idx), Nat.mul_div_cancel _ (by omega : 0 < v + idx)]

lemma choose_lt_grow (v L : Nat) (hL : 1 ≤ L) :
    Nat.choose (v + L) L < Nat.choose (v + 1 + L) L := by
  obtain ⟨k, rfl⟩ : ∃ k, L = k + 1 := ⟨L - 1, by omega⟩
  have e : v + 1 + (k + 1) = (v + (k + 1)) + 1 := by omega
  rw [e, Nat.choose_succ_succ]
  have hp : 0 < Nat.choose (v + (k + 1)) k := Nat.choose_pos (by omega)
  simp only [Nat.succ_eq_add_one]
  omega

end ChooseIdentities

section LoopSpecs

lemma growVal_spec (L : Nat) (hL : 2 ≤ L) :
    ∀ (fuel r val : Nat), Nat.choose (val + L - 1) L ≤ r →
      r < fuel + Nat.choose (val + L) L →
      ∃ v, growVal r L fuel val (Nat.choose (val + L - 1) L) (Nat.choose (val + L) L)
             = (v, Nat.choose (v + L - 1) L)
        ∧ Nat.choose (v + L - 1) L ≤ r ∧ r < Nat.choose (v + L) L := by
  intro fuel
  induction fuel with
  | zero =>
    intro r val h1 h2
    exact ⟨val, rfl, h1, by omega⟩
  | succ n ih =>
    intro r val h1 h2
    by_cases hbr : Nat.choose (val + L) L ≤ r
    · have e1 : val + 1 + L - 1 = val + L := by omega
      have harith : Nat.choose (val + L) L * (val + 1 + L) / (val + 1)
          = Nat.choose (val + 1 + L) L := choose_grow_step val L
      have hmono : Nat.choose (val + L) L < Nat.choose (val + 1 + L) L :=
        choose_lt_grow val L (by omega)
      obtain ⟨v, hv, hv1, hv2⟩ := ih r (val + 1) (by rw [e1]; exact hbr) (by omega)
      refine ⟨v, ?_, hv1, hv2⟩
      rw [growVal, if_pos hbr, harith]
      rw [e1] at hv
      exact hv
    · refine ⟨val, ?_, h1, by omega⟩
      rw [growVal, if_neg hbr]

lemma shrinkVal_spec (idx : Nat) (hidx : 1 ≤ idx) :
    ∀ (val r : Nat), r < Nat.choose (val + idx) idx →
    ∃ v, shrinkVal r idx val (Nat.choose (val + idx - 1) idx) = (v, Nat.choose (v + idx - 1) idx)
      ∧ Nat.choose (v + idx - 1) idx ≤ r ∧ r < Nat.choose (v + idx) idx ∧ v ≤ val := by
  intro val
  induction val with
  | zero =>
    intro r h
    have h0 : Nat.choose (0 + idx - 1) idx = 0 :=
      Nat.choose_eq_zero_of_lt (by omega)
    exact ⟨0, by rw [shrinkVal], by omega, h, le_refl 0⟩
  | succ w ih =>
    intro r h
    have e1 : w + 1 + idx - 1 = w + idx := by omega
    by_cases hrb : r < Nat.choose (w + idx) idx
    · have harith : Nat.choose (w + idx) idx * w / (w + idx)
          = Nat.choose (w + idx - 1) idx := choose_shrink_step w idx hidx
      obtain ⟨v, hv, h1, h2, h3⟩ := ih r hrb
      refine ⟨v, ?_, h1, h2, by omega⟩
      rw [e1, shrinkVal, if_pos hrb, harith]
      exact hv
    · refine ⟨w + 1, ?_, by rw [e1]; omega, h, le_refl _⟩
      rw [e1, shrinkVal, if_neg hrb]

lemma specRankSum_append : ∀ (ds : List Nat) (j c : Nat),
    specRankSum j (ds ++ [c]) = specRankSum j ds + Nat.choose c (j + ds.length + 1)
  | [], j, c => by simp [specRankSum]
  | d :: rest, j, c => by
    have ih := specRankSum_append rest (j + 1) c
    have e : j + 1 + rest.length + 1 = j + (rest.length + 1) + 1 := by omega
    rw [e] at ih
    show Nat.choose d (j + 1) + specRankSum (j + 1) (rest ++ [c])
        = Nat.choose d (j + 1) + specRankSum (j + 1) rest
          + Nat.choose c (j + (rest.length + 1) + 1)
    rw [ih]
    omega

lemma chain'_append_lt : ∀ (l : List Nat) (c : Nat),
    l.Chain' (· < ·) → (∀ d ∈ l, d < c) → (l ++ [c]).Chain' (· < ·)
  | [], _, _, _ => by simp
  | [a], c, _, h => by
    simp only [List.cons_append, List.nil_append]
    exact List.chain'_cons.mpr ⟨h a (by simp), List.chain'_singleton c⟩
  | a :: b :: t, c, hc, h => by
    have hc' := List.chain'_cons.mp hc
    have ih := chain'_append_lt (b :: t) c hc'.2
      (fun d hd => h d (List.mem_cons_of_mem a hd))
    exact List.chain'_cons.mpr ⟨hc'.1, ih⟩

lemma peel_length (offset : Int) : ∀ (idx r binomial val : Nat),
    (peel offset r binomial val idx).length = idx + 1
  | 0, _, _, _ => by simp [peel]
  | 1, _, _, _ => by simp [peel]
  | idx + 2, r, binomial, val => by
    simp only [peel, List.length_append, List.length_singleton]
    rw [peel_length offset (idx + 1)]

lemma peel_spec (offset : Int) : ∀ (idx val r binomial : Nat), 1 ≤ idx →
    binomial = Nat.choose (val + idx) (idx + 1) →
    binomial ≤ r → r < Nat.choose (val + idx + 1) (idx + 1) →
    ∃ ds : List Nat,
      peel offset r binomial val idx = withOffset offset ds
      ∧ ds.length = idx + 1
      ∧ ds.Chain' (· < ·)
      ∧ (∀ d ∈ ds, d ≤ val + idx)
      ∧ specRankSum 0 ds = r
  | 0, _, _, _ => by intro h; omega
  | 1, val, r, binomial => by
    intro _ hb hbr hub
    subst hb
    have hpascal := Nat.choose_succ_succ' (val + 1) 1
    rw [Nat.choose_one_right] at hpascal
    rw [hpascal] at hub
    refine ⟨[r - Nat.choose (val + 1) (1 + 1), val + 1],
      by simp [peel, withOffset], rfl, ?_, ?_, ?_⟩
    · exact List.chain'_cons.mpr ⟨by omega, List.chain'_singleton _⟩
    · intro d hd
      rcases List.mem_cons.mp hd with h | h
      · omega
      · rw [List.mem_singleton] at h; omega
    · simp only [specRankSum]
      rw [show (0 : Nat) + 1 = 1 from rfl, show (0 : Nat) + 1 + 1 = 1 + 1 from rfl]
      rw [Nat.choose_one_right]
      omega
  | idx + 2, val, r, binomial => by
    intro _ hb hbr hub
    subst hb
    have hm : 1 ≤ val + (idx + 2) := by omega
    have hb' : Nat.choose (val + (idx + 2)) (idx + 2 + 1) * (idx + 2 + 1) / (val + (idx + 2))
        = Nat.choose (val + (idx + 2) - 1) (idx + 2) :=
      choose_peel_step (val + (idx + 2)) (idx + 2) hm
    have hpascal := Nat.choose_succ_succ' (val + (idx + 2)) (idx + 2)
    have hub' : r - Nat.choose (val + (idx + 2)) (idx + 2 + 1)
        < Nat.choose (val + (idx + 2)) (idx + 2) := by
      rw [hpascal] at hub
      omega
    obtain ⟨v, hsv, hv1, hv2, hvle⟩ :=
      shrinkVal_spec (idx + 2) (by omega) val
        (r - Nat.choose (val + (idx + 2)) (idx + 2 + 1)) hub'
    have hbIH : Nat.choose (v + (idx + 2) - 1) (idx + 2)
        = Nat.choose (v + (idx + 1)) (idx + 1 + 1) := by
      rw [show v + (idx + 2) - 1 = v + (idx + 1) from by omega]
    obtain ⟨ds, hmap, hlen, hchain, hbound, hsum⟩ :=
      peel_spec offset (idx + 1) v (r - Nat.choose (val + (idx + 2)) (idx + 2 + 1))
        (Nat.choose (v + (idx + 2) - 1) (idx + 2))
        (by omega) hbIH hv1
        (by rw [show v + (idx + 1) + 1 = v + (idx + 2) from by omega,
              show idx + 1 + 1 = idx + 2 from by omega]; exact hv2)
    refine ⟨ds ++ [val + (idx + 2)], ?_, ?_, ?_, ?_, ?_⟩
    · simp only [peel]
      rw [hb', hsv, hmap]
      simp [withOffset]
    · simp [hlen]
    · exact chain'_append_lt ds (val + (idx + 2)) hchain
        (fun d hd => by have := hbound d hd; omega)
    · intro d hd
      rcases List.mem_append.mp hd with h | h
      · have := hbound d h; omega
      · rw [List.mem_singleton] at h; omega
    · rw [specRankSum_append, hlen, hsum]
      rw [show 0 + (idx + 1 + 1) + 1 = idx + 2 + 1 from by omega]
      omega

lemma rankFold_cons (offset : Int) (index : Nat) (value : Int) (rest : List Int) :
    rankFold offset index (value :: rest)
      = (if value - offset = (index : Int) then rankFold offset (index + 1) rest
         else do
           let c ← comb (value - offset) ((index : Int) + 1)
           let r ← rankFold offset (index + 1) rest
           some ((c : Int) + r)) := rfl

lemma rankFold_map (offset : Int) : ∀ (ds : List Nat) (j : Nat),
    rankFold offset j (withOffset offset ds) = some ((specRankSum j ds : Nat) : Int)
  | [], j => by simp [withOffset, rankFold, specRankSum]
  | d :: rest, j => by
    have ih := rankFold_map offset rest (j + 1)
    simp only [withOffset, List.map_cons] at ih ⊢
    rw [rankFold_cons]
    simp only [add_sub_cancel_right]
    by_cases hdj : d = j
    · subst hdj
      rw [if_pos rfl, ih]
      simp [specRankSum, Nat.choose_eq_zero_of_lt (Nat.lt_succ_self d)]
    · rw [if_neg (by exact_mod_cast hdj)]
      have htn : ((j : Int) + 1).toNat = j + 1 := by omega
      have hcomb : comb (d : Int) ((j : Int) + 1) = some (Nat.choose d (j + 1)) := by
        rw [comb, if_neg (by omega)]
        rw [Int.toNat_natCast, htn]
      rw [hcomb]
      simp only [Option.bind_eq_bind, Option.some_bind, ih]
      simp [specRankSum]

lemma sortInts_withOffset (offset : Int) (ds : List Nat) (h : ds.Chain' (· < ·)) :
    sortInts (withOffset offset ds) = withOffset offset ds := by
  apply List.Sorted.insertionSort_eq
  have hp : ds.Pairwise (· < ·) := List.chain'_iff_pairwise.mp h
  unfold withOffset
  refine hp.map _ (fun a b hab => ?_)
  have h' : (a : Int) < (b : Int) := by exact_mod_cast hab
  omega

lemma roundtrip_ge_two (K : Nat) (r : Nat) (offset : Int) :
    (get_combination_from_rank (r : Int) ((K + 2 : Nat) : Int) offset).bind
      (fun l => get_combination_rank l offset) = some (r : Int) := by
  have hguard : get_combination_from_rank (r : Int) ((K + 2 : Nat) : Int) offset
      = some (peel offset r (growVal r (K + 2) (r + 1) 0 0 1).2
          (growVal r (K + 2) (r + 1) 0 0 1).1 (K + 1)) := by
    rw [get_combination_from_rank]
    rw [if_neg (by omega), if_neg (by omega), if_neg (by omega), if_neg (by omega)]
    simp only [Int.toNat_natCast]
    rw [show K + 2 - 1 = K + 1 from by omega]
  have e1 : (0 : Nat) = Nat.choose (0 + (K + 2) - 1) (K + 2) := by
    rw [Nat.choose_eq_zero_of_lt (by omega)]
  have e2 : (1 : Nat) = Nat.choose (0 + (K + 2)) (K + 2) := by
    rw [show 0 + (K + 2) = K + 2 from by omega, Nat.choose_self]
  obtain ⟨v, hgv, hv1, hv2⟩ := growVal_spec (K + 2) (by omega) (r + 1) r 0
    (by rw [← e1]; omega) (by omega)
  rw [← e1, ← e2] at hgv
  obtain ⟨ds, hmap, hlen, hchain, _, hsum⟩ :=
    peel_spec offset (K + 1) v r (Nat.choose (v + (K + 2) - 1) (K + 2)) (by omega)
      (by rw [show v + (K + 2) - 1 = v + (K + 1) from by omega])
      hv1
      (by rw [show v + (K + 1) + 1 = v + (K + 2) from by omega]; exact hv2)
  rw [hguard, hgv]
  simp only [Option.bind_eq_bind, Option.some_bind]
  rw [hmap, get_combination_rank, sortInts_withOffset offset ds hchain,
    rankFold_map offset ds 0, hsum]

end LoopSpecs

example : get_combination_from_rank 0 3 = some [0, 1, 2] := by decide
example : get_combination_from_rank 2 3 = some [0, 2, 3] := by decide
example : get_combination_from_rank 0 3 1 = some [1, 2, 3] := by decide
example : get_combination_rank [0, 1, 2] = some 0 := by decide
example : get_combination_rank [0, 2, 3] = some 2 := by decide
example : get_combination_rank [1, 2, 3] 1 = some 0 := by decide

/-- Claim C1: round trip of the combinatorial number system.  For every
length `k ≥ 0`, every offset, and every rank in `[0, C(n, k))` for any
`n ≥ k`, `get_combination_rank (get_combination_from_rank rank k offset)
offset = rank`. -/
theorem claim_C1_round_trip (k n : Nat) (offset : Int) (r : Nat)
    (hkn : k ≤ n) (hr : r < Nat.choose n k) :
    (get_combination_from_rank (r : Int) (k : Int) offset).bind
      (fun l => get_combination_rank l offset) = some (r : Int) := by
  match k with
  | 0 =>
    have hr0 : r = 0 := by
      rw [Nat.choose_zero_right] at hr
      omega
    subst hr0
    rw [show ((0 : Nat) : Int) = 0 from rfl, get_combination_from_rank]
    norm_num
    rw [get_combination_rank]
    rfl
  | 1 =>
    rw [show ((1 : Nat) : Int) = 1 from rfl, get_combination_from_rank]
    rw [if_neg (by omega)]
    norm_num
    rw [get_combination_rank]
    have hsort : sortInts [(r : Int) + offset] = [(r : Int) + offset] := rfl
    rw [hsort, rankFold_cons]
    simp only [add_sub_cancel_right]
    by_cases hr0 : r = 0
    · subst hr0
      rw [if_pos (by norm_num)]
      rfl
    · rw [if_neg (by exact_mod_cast hr0)]
      have htn : (((0 : Nat) : Int) + 1).toNat = 1 := by omega
      have hcomb : comb (r : Int) (((0 : Nat) : Int) + 1) = some (Nat.choose r 1) := by
        rw [comb, if_neg (by omega)]
        rw [Int.toNat_natCast, htn]
      rw [hcomb]
      simp [rankFold, Nat.choose_one_right]
  | K + 2 => exact roundtrip_ge_two K r offset

/-- Witness for C1 at `k = 3`, `n = 5`, `offset = 0`, `rank = 7`. -/
theorem claim_C1_round_trip_witness :
    3 ≤ 5 ∧ 7 < Nat.choose 5 3 ∧
      (get_combination_from_rank ((7 : Nat) : Int) ((3 : Nat) : Int) 0).bind
        (fun l => get_combination_rank l 0) = some ((7 : Nat) : Int) :=
  ⟨by decide, by decide, claim_C1_round_trip 3 5 0 7 (by decide) (by decide)⟩

lemma rankFold_spec (offset : Int) : ∀ (l : List Int) (j : Nat),
    (∀ v ∈ l, offset ≤ v) →
    rankFold offset j l
      = some ((specRankSum j (l.map (fun v => (v - offset).toNat)) : Nat) : Int)
  | [], j, _ => by simp [rankFold, specRankSum]
  | v :: rest, j, h => by
    have hv : offset ≤ v := h v (by simp)
    have ih := rankFold_spec offset rest (j + 1) (fun w hw => h w (by simp [hw]))
    rw [rankFold_cons]
    by_cases hvj : v - offset = (j : Int)
    · rw [if_pos hvj, ih]
      simp only [List.map_cons, specRankSum]
      have he : (v - offset).toNat = j := by omega
      rw [he, Nat.choose_eq_zero_of_lt (Nat.lt_succ_self j)]
      simp
    · rw [if_neg hvj]
      have htn : ((j : Int) + 1).toNat = j + 1 := by omega
      have hcomb : comb (v - offset) ((j : Int) + 1)
          = some (Nat.choose (v - offset).toNat (j + 1)) := by
        rw [comb, if_neg (by omega)]
        rw [htn]
      rw [hcomb]
      simp only [Option.bind_eq_bind, Option.some_bind, ih]
      simp only [List.map_cons, specRankSum]
      push_cast
      ring_nf

/-- Claim C3: `get_combination_rank` sorts the values ascending and, for
0-based index `i` and value `v` after subtracting the offset, adds 0 when
`v == i` (`C(i, i+1) = 0`) and `C(v, i+1)` otherwise; moreover
`get_combination_rank [0,1,2] = 0`, `get_combination_rank [23,33,45] = 14741`
and `get_combination_from_rank 14741 3 = [23,33,45]`. -/
theorem claim_C3_rank_encoding :
    (∀ (values : List Int) (offset : Int),
        values.Pairwise (· ≠ ·) → (∀ v ∈ values, offset ≤ v) →
        get_combination_rank values offset
          = some ((specRankSum 0
              ((sortInts values).map (fun v => (v - offset).toNat)) : Nat) : Int))
    ∧ get_combination_rank [0, 1, 2] 0 = some 0
    ∧ get_combination_rank [23, 33, 45] 0 = some 14741
    ∧ get_combination_from_rank 14741 3 0 = some [23, 33, 45] := by
  refine ⟨?_, by decide, by decide, by decide⟩
  intro values offset _ h
  rw [get_combination_rank]
  exact rankFold_spec offset (sortInts values) 0
    (fun v hv => h v ((List.mem_insertionSort _).mp hv))

/-- Witness for the universally quantified part of C3 at
`values = [23, 33, 45]`, `offset = 0`. -/
theorem claim_C3_rank_encoding_witness :
    ([23, 33, 45] : List Int).Pairwise (· ≠ ·)
    ∧ (∀ v ∈ ([23, 33, 45] : List Int), (0 : Int) ≤ v)
    ∧ get_combination_rank [23, 33, 45] 0
        = some ((specRankSum 0
            ((sortInts [23, 33, 45]).map (fun v => (v - 0).toNat)) : Nat) : Int) :=
  ⟨by decide, by decide,
    claim_C3_rank_encoding.1 [23, 33, 45] 0 (by decide) (by decide)⟩

/-- Claim C5 concerns `comb = cache(math_comb)`.  Its docstring (combination.py
lines 31-32) claims a `ValueError` for `k > n`, but `math.comb` only raises
for negative arguments and returns 0 when `k > n`.  This theorem evaluates the
model of the code: `comb 2 5` succeeds with value 0 instead of failing, while
negative arguments do fail. -/
theorem claim_C5_comb_failure :
    comb 2 5 = some 0 ∧ comb (-1) 2 = none ∧ comb 2 (-1) = none := by decide

/-! ## The `Combination` class (combination.py lines 131-516) -/

lemma sortInts_perm (l : List Int) : List.Perm (sortInts l) l :=
  List.perm_insertionSort _ l

lemma sortInts_sorted (l : List Int) : (sortInts l).Sorted (· ≤ ·) :=
  List.sorted_insertionSort _ l

lemma sortInts_congr {a b : List Int} (h : List.Perm a b) : sortInts a = sortInts b :=
  List.eq_of_perm_of_sorted ((sortInts_perm a).trans (h.trans (sortInts_perm b).symm))
    (sortInts_sorted a) (sortInts_sorted b)

/-- `sorted(...)` applied to an unordered collection (a Python `set`,
modelled by a multiset): well-defined because sorting is invariant under
permutation. -/
def msortInts (s : Multiset Int) : List Int :=
  Quotient.liftOn s sortInts (fun _ _ h => sortInts_congr h)

def DEFAULT_START : Int := 1
def DEFAULT_END : Int := 50
def DEFAULT_COUNT : Nat := 5

/-- Model of the state of a `Combination` object: the stored set `_values`,
the stored (possibly absent) `_rank` and the offset `_start`. -/
structure Combination where
  vals : Finset Int
  rnk : Option Int
  start : Int

/-- Model of `Combination.__init__` (lines 158-183) on the plain-iterable
path: `values` an iterable of ints (possibly empty), `rank` and `start`
optional.  (`if not values: values = []; rank = None`; default start.) -/
def Combination.init (values : List Int) (rank : Option Int) (start : Option Int) :
    Combination where
  vals := values.toFinset
  rnk := if values = [] then none else rank
  start := start.getD DEFAULT_START

/-- `Combination.values` (lines 185-197): sorted list of the value set. -/
def Combination.values (c : Combination) : List Int := msortInts c.vals.val

/-- `Combination.length` (lines 215-227). -/
def Combination.length (c : Combination) : Nat := c.vals.card

/-- `Combination.get_values` (lines 287-300). -/
def Combination.get_values (c : Combination) (newStart : Int) : List Int :=
  if newStart = c.start then c.values
  else c.values.map (fun v => v + (newStart - c.start))

/-- `Combination.rank` (lines 199-213): the stored rank if present, else
computed from the value set at offset `_start`. -/
def Combination.rank (c : Combination) : Option Int :=
  match c.rnk with
  | some r => some r
  | none => get_combination_rank c.values c.start

/-- The `Combination`-argument branch of `Combination.equals` (lines
324-325): `self.values == combination.get_values(self._start)`. -/
def Combination.equalsComb (c other : Combination) : Bool :=
  c.values == other.get_values c.start

/-- `Combination.intersection` (lines 390-415) on an iterable argument.  The
source returns `Combination(self._values.intersection(combination),
self._start)`: the second positional argument of `Combination.__init__` is
`rank`, so `self._start` is passed as the `rank` argument and the `start`
argument is left at its default. -/
def Combination.intersection (c : Combination) (other : List Int) : Combination :=
  Combination.init (msortInts (c.vals ∩ other.toFinset).val) (some c.start) none

/-- `Combination.intersection` on a `Combination` argument: the argument is
first re-based to `self._start` (line 410). -/
def Combination.intersectionOfComb (c : Combination) (other : Combination) : Combination :=
  c.intersection (other.get_values c.start)

/-! ## The `BoundCombination` class (combination.py lines 531-755) -/

/-- The possible shapes of the `values` argument of
`BoundCombination.__init__`: absent, an iterable, an int (treated as a
rank), or a `Combination`.  (The `{values, rank}` dict shape is only a
convenience unpacking and is not needed by any claim.) -/
inductive BCInput where
  | none_
  | vals (l : List Int)
  | rnk (r : Int)
  | comb (c : Combination)

/-- `min(max(value, start), end)` (combination.py line 595). -/
def clamp (start endv v : Int) : Int := min (max v start) endv

/-- Model of the state of a `BoundCombination`. -/
structure BoundCombination extends Combination where
  endv : Int
  count : Nat
  combinations : Nat

/-- Model of `BoundCombination.__init__` (lines 561-600).  `none` models a
raised exception (from `comb` or from `get_combination_from_rank`). -/
def BoundCombination.init (values : BCInput) (rank : Option Int)
    (start endv : Option Int) (count : Option Nat) (combinations : Option Nat) :
    Option BoundCombination := do
  let start := start.getD DEFAULT_START
  let endv := endv.getD DEFAULT_END
  let count := count.getD DEFAULT_COUNT
  let combinations ← (match combinations with
    | some cs => some cs
    | none => comb (endv - start + 1) (count : Int))
  let vr ← (match values with
    | BCInput.comb c =>
        some (c.get_values start, if rank.isSome then rank else c.rnk)
    | BCInput.rnk r => do
        let l ← get_combination_from_rank r (count : Int) start
        some (l, some (rank.getD r))
    | BCInput.vals l =>
        if l = [] then
          (match rank with
           | some rk => do
               let l' ← get_combination_from_rank rk (count : Int) start
               some (l', some rk)
           | none => some (([] : List Int), (none : Option Int)))
        else some (l, rank)
    | BCInput.none_ =>
        (match rank with
         | some rk => do
             let l' ← get_combination_from_rank rk (count : Int) start
             some (l', some rk)
         | none => some (([] : List Int), (none : Option Int))))
  let vlist := (vr.1.take count).map (clamp start endv)
  some { toCombination := Combination.init vlist vr.2 (some start)
         endv := endv
         count := count
         combinations := combinations }

/-- Model of `BoundCombination.copy` (lines 678-737). -/
def BoundCombination.copy (b : BoundCombination) (values : Option BCInput)
    (rank : Option Int) (start endv : Option Int) (count : Option Nat)
    (combinations : Option Nat) : Option BoundCombination :=
  let start := start.getD b.start
  let endv := endv.getD b.endv
  let count := count.getD b.count
  let combinations :=
    if combinations.isNone ∧ start = b.start ∧ endv = b.endv ∧ count = b.count
    then some b.combinations else combinations
  match values with
  | some v => BoundCombination.init v rank (some start) (some endv) (some count) combinations
  | none =>
      BoundCombination.init (BCInput.vals (b.get_values start))
        (match b.rnk with | some r => some r | none => rank)
        (some start) (some endv) (some count) combinations

lemma mem_msortInts {v : Int} {s : Multiset Int} : v ∈ msortInts s ↔ v ∈ s := by
  induction s using Quotient.inductionOn with
  | h l =>
    show v ∈ sortInts l ↔ v ∈ (l : Multiset Int)
    unfold sortInts
    rw [List.mem_insertionSort, Multiset.mem_coe]

/-- Shape of a `BoundCombination` built from an iterable with defaulted
`rank` and `combinations` (the path of claim C4), provided `start ≤ end` so
that the binomial-coefficient call succeeds. -/
lemma init_vals_shape (l : List Int) (start endv : Int) (count : Nat)
    (h : start ≤ endv) :
    BoundCombination.init (BCInput.vals l) none (some start) (some endv)
        (some count) none
      = some { toCombination :=
                 Combination.init ((l.take count).map (clamp start endv)) none (some start)
               endv := endv
               count := count
               combinations := Nat.choose (endv - start + 1).toNat count } := by
  rw [BoundCombination.init]
  have hc : comb (endv - start + 1) (count : Int)
      = some (Nat.choose (endv - start + 1).toNat count) := by
    rw [comb, if_neg (by omega)]
    rw [show ((count : Int)).toNat = count from by omega]
  by_cases hl : l = []
  · subst hl
    simp [hc]
  · simp [hc, hl]

/-- Claim C4 counterexample: the claim quantifies over every constructed
`BoundCombination`, but for `start = 2 > end = 1` (constructible, since
`comb(0, 1) = 0` does not raise) the clamped value `1` does not lie in the
empty closed range `[2, 1]`. -/
theorem claim_C4_counterexample :
    (BoundCombination.init (BCInput.vals [5]) none (some 2) (some 1) (some 1) none).map
        (fun b => b.values) = some [1]
    ∧ ¬((2 : Int) ≤ 1) := by decide

/-- Claim C4 (amended: requires `start ≤ end`): a `BoundCombination` built
from an iterable holds at most `count` values, every held value lies in
`[start, end]`, construction succeeds (drops and clamps instead of
rejecting), and the omitted `combinations` defaults to
`C(end - start + 1, count)`; with `start = 1`, `end = 50`, `count = 5` that
is 2118760. -/
theorem claim_C4_bound_invariant :
    (∀ (l : List Int) (start endv : Int) (count : Nat), start ≤ endv →
      ∃ b, BoundCombination.init (BCInput.vals l) none (some start) (some endv)
            (some count) none = some b
        ∧ b.length ≤ count
        ∧ (∀ v ∈ b.values, start ≤ v ∧ v ≤ endv)
        ∧ b.combinations = Nat.choose (endv - start + 1).toNat count)
    ∧ (BoundCombination.init (BCInput.vals [1, 2, 3]) none (some 1) (some 50)
        (some 5) none).map (fun b => b.combinations) = some 2118760 := by
  constructor
  · intro l start endv count h
    refine ⟨_, init_vals_shape l start endv count h, ?_, ?_, rfl⟩
    · show (Combination.init ((l.take count).map (clamp start endv)) none (some start)).vals.card
          ≤ count
      calc ((l.take count).map (clamp start endv)).toFinset.card
          ≤ ((l.take count).map (clamp start endv)).length := List.toFinset_card_le _
        _ = (l.take count).length := List.length_map _ _
        _ ≤ count := by rw [List.length_take]; omega
    · intro v hv
      have hv' : v ∈ ((l.take count).map (clamp start endv)).toFinset := by
        have h0 := mem_msortInts.mp hv
        exact Finset.mem_val.mp h0
      rw [List.mem_toFinset, List.mem_map] at hv'
      obtain ⟨w, _, hw⟩ := hv'
      rw [← hw, clamp]
      omega
  · have h50 : Nat.choose 50 5 = 2118760 := by
      rw [Nat.choose_eq_descFactorial_div_factorial]
      rfl
    rw [init_vals_shape [1, 2, 3] 1 50 5 (by norm_num), Option.map_some']
    show some ((((50 : Int) - 1 + 1).toNat).choose 5) = some 2118760
    rw [show (((50 : Int) - 1 + 1).toNat) = 50 from by decide, h50]

/-- Witness for the universally quantified part of C4 at
`l = [60, 2]`, `start = 1`, `end = 50`, `count = 5`. -/
theorem claim_C4_bound_invariant_witness :
    (1 : Int) ≤ 50 ∧
    ∃ b, BoundCombination.init (BCInput.vals [60, 2]) none (some 1) (some 50)
          (some 5) none = some b
      ∧ b.length ≤ 5
      ∧ (∀ v ∈ b.values, (1 : Int) ≤ v ∧ v ≤ 50)
      ∧ b.combinations = Nat.choose ((50 : Int) - 1 + 1).toNat 5 :=
  ⟨by decide, claim_C4_bound_invariant.1 [60, 2] 1 50 5 (by decide)⟩

/-- Claim C6 concerns `Combination.intersection` (combination.py line 415):
`Combination(self._values.intersection(combination), self._start)` passes
`self._start` positionally into the `rank` parameter (compare line 444,
where `start=` is passed by keyword).  The intersected values are right, but
the result's rank is `c.start` instead of the combinatorial-number-system
rank of the intersected values (2 for `[3]` at offset 1), and the result's
start is `DEFAULT_START = 1` rather than `c.start`. -/
theorem claim_C6_intersection_slip :
    ((Combination.init [1, 2, 3] none none).intersection [3, 4, 5]).values = [3]
    ∧ ((Combination.init [1, 2, 3] none none).intersection [3, 4, 5]).rank = some 1
    ∧ get_combination_rank [3] 1 = some 2
    ∧ (1 : Int) ≠ 2
    ∧ ((Combination.init [0, 1, 2] none (some 0)).intersection [2, 5]).start = 1
    ∧ (Combination.init [0, 1, 2] none (some 0)).start = 0 := by decide

/-! ## The `LotteryCombination` class (lottery_combination.py)

Component names (Python `str`) are modelled by `Nat`; the code only ever
compares names for equality and uses them as dict keys.  The ordered dict
`_components` is an association list, and the `winning_ranks` dict maps
tuples of per-component lengths to prize ranks. -/

abbrev WinningRanks := List (List Nat × Int)

structure LotteryCombination where
  components : List (Nat × BoundCombination)
  winningRanks : WinningRanks

/-- `LotteryCombination.values` (lines 121-138): concatenation of the
components' sorted values in declaration order. -/
def LotteryCombination.values (c : LotteryCombination) : List Int :=
  (c.components.map (fun p => p.2.values)).flatten

/-- `LotteryCombination.length` (lines 164-181). -/
def LotteryCombination.length (c : LotteryCombination) : Nat :=
  (c.components.map (fun p => p.2.length)).sum

/-- `LotteryCombination.combinations` (lines 202-221): 0 for an empty
component mapping, else the product of the components' `combinations`. -/
def LotteryCombination.combinations (c : LotteryCombination) : Nat :=
  if c.components.isEmpty then 0
  else (c.components.map (fun p => p.2.combinations)).prod

/-- The accumulation loop of `LotteryCombination.rank` (lines 157-162),
iterating over `reversed(self._components.values())` with an accumulator
`rank` and a place-value `multiplier`. -/
def rankFoldRev : List BoundCombination → Int → Nat → Option Int
  | [], rank, _ => some rank
  | b :: rest, rank, mult => do
      let br ← b.rank
      rankFoldRev rest (rank + br * (mult : Int)) (mult * b.combinations)

/-- `LotteryCombination.rank` (lines 140-162). -/
def LotteryCombination.rank (c : LotteryCombination) : Option Int :=
  rankFoldRev (c.components.map (fun p => p.2)).reverse 0 1

/-- The shapes of the positional `combination` argument of
`get_combination` and friends: absent, a same-kind instance, an int rank,
or a flat iterable of values. -/
inductive GCInput where
  | none_
  | lot (c : LotteryCombination)
  | rnk (r : Int)
  | vals (l : List Int)

/-- Python dict merge `{**base, **upd}` on ordered dicts with unique keys:
keys of `base` keep their position (values replaced by `upd`'s when
present), new keys of `upd` are appended in order. -/
def mergeDicts (base upd : List (Nat × BoundCombination)) :
    List (Nat × BoundCombination) :=
  base.map (fun p => (p.1, ((upd.lookup p.1).getD p.2)))
    ++ upd.filter (fun p => (base.lookup p.1).isNone)

/-- `LotteryCombination.get_components` (lines 431-465): resolve each named
override through the matching component's `copy`; an unknown name raises
`KeyError` (modelled by `none`). -/
def LotteryCombination.get_components (c : LotteryCombination)
    (overrides : List (Nat × BCInput)) : Option (List (Nat × BoundCombination)) :=
  overrides.mapM (fun p => do
    let comp ← c.components.lookup p.1
    let comp' ← comp.copy (some p.2) none none none none none
    some (p.1, comp'))

/-- The int branch of `get_combination` (lines 403-407): peel the
last-declared component first with `%` and `//`.  The caller passes the
reversed component list; the output is in the same (reversed) order and is
re-reversed by the caller, like the source's `dict(reversed(...))`. -/
def decodeRev : Int → List (Nat × BoundCombination) →
    Option (List (Nat × BoundCombination))
  | _, [] => some []
  | r, (name, comp) :: rest => do
      let comp' ← comp.copy (some (BCInput.rnk (r % (comp.combinations : Int))))
        none none none none none
      let rest' ← decodeRev (r / (comp.combinations : Int)) rest
      some ((name, comp') :: rest')

/-- The flat-iterable branch of `get_combination` (lines 408-415): each
component consumes its `count` values off the front of the list. -/
def splitVals : List Int → List (Nat × BoundCombination) →
    Option (List (Nat × BoundCombination))
  | _, [] => some []
  | values, (name, comp) :: rest => do
      let comp' ← comp.copy (some (BCInput.vals (values.take comp.count)))
        none none none none none
      let rest' ← splitVals (values.drop comp.count) rest
      some ((name, comp') :: rest')

/-- `LotteryCombination.get_combination` (lines 361-421).  The base class's
`_create_combination` builds a plain `LotteryCombination` from the merged
components and winning ranks. -/
def LotteryCombination.get_combination (c : LotteryCombination)
    (combination : GCInput) (winning_ranks : Option WinningRanks)
    (overrides : List (Nat × BCInput)) : Option LotteryCombination := do
  let comps ← c.get_components overrides
  let merged ← (match combination with
    | GCInput.lot lc =>
        some (mergeDicts lc.components comps,
          if winning_ranks.isSome then winning_ranks else some lc.winningRanks)
    | GCInput.rnk r => do
        let dec ← decodeRev r c.components.reverse
        some (mergeDicts dec.reverse comps, winning_ranks)
    | GCInput.vals l => do
        let sp ← splitVals l c.components
        some (mergeDicts sp comps, winning_ranks)
    | GCInput.none_ => some (comps, winning_ranks))
  some { components := merged.1, winningRanks := merged.2.getD c.winningRanks }

/-- The values a `copy` keyword override can take, together with its Python
truthiness (`Combination` defines `__len__`, so an empty combination is
falsy, as are `[]`, `0` and `None` — an absent entry). -/
inductive CopyArg where
  | vals (l : List Int)
  | rnk (r : Int)
  | comb (b : BoundCombination)

def CopyArg.truthy : CopyArg → Bool
  | CopyArg.vals l => !l.isEmpty
  | CopyArg.rnk r => r != 0
  | CopyArg.comb b => b.vals.card != 0

/-- `LotteryCombination.copy` (lines 335-359).  For each existing component
the source evaluates `components.get(name) or values` (override if truthy,
else the original component); `_create_combination` then rejects any
component that is not a `BoundCombination` with a `TypeError` (modelled by
`none`).  Override names that are not existing components are dropped. -/
def LotteryCombination.copy (c : LotteryCombination)
    (winning_ranks : Option WinningRanks) (overrides : List (Nat × CopyArg)) :
    Option LotteryCombination := do
  let wr := winning_ranks.getD c.winningRanks
  let comps ← c.components.mapM (fun p =>
    match overrides.lookup p.1 with
    | some v =>
        if v.truthy then
          (match v with
           | CopyArg.comb b => some (p.1, b)
           | _ => none)
        else some p
    | none => some p)
  some { components := comps, winningRanks := wr }

/-- `LotteryCombination.get_component_values` (lines 493-520). -/
def LotteryCombination.get_component_values (c : LotteryCombination) (name : Nat) :
    List Int :=
  match c.components.lookup name with
  | none => []
  | some comp => comp.values

/-- The component comparison used by `equals` and `similarity`:
`self_name == other_name and self_comp == other_comp`, where `==` on
combinations compares `self.values` with `combination.get_values
(self._start)`. -/
def componentPairEq (p q : Nat × BoundCombination) : Bool :=
  p.1 == q.1 && p.2.values == q.2.get_values p.2.start

/-- `LotteryCombination.equals` (lines 571-619). -/
def LotteryCombination.equals (c : LotteryCombination) (combination : GCInput)
    (overrides : List (Nat × BCInput)) : Option Bool := do
  let other ← c.get_combination combination none overrides
  if other.length ≠ c.length then some false
  else if other.length = 0 ∧ c.length = 0 then some true
  else some ((c.components.zip other.components).all
    (fun pq => componentPairEq pq.1 pq.2))

/-- `LotteryCombination.similarity` (lines 824-883), with the `float`
division modelled exactly over `Rat` (`mkRat a b` is the rational `a / b`;
the division is only reached with `c.length ≠ 0`). -/
def LotteryCombination.similarity (c : LotteryCombination) (combination : GCInput)
    (overrides : List (Nat × BCInput)) : Option Rat := do
  let other ← c.get_combination combination none overrides
  if other.length = 0 ∧ c.length = 0 then some 1
  else if other.length = 0 ∨ c.length = 0 then some 0
  else if (c.components.zip other.components).all
      (fun pq => componentPairEq pq.1 pq.2) then some 1
  else do
    let interComps ← other.components.mapM (fun p => do
        let scomp ← c.components.lookup p.1
        some (p.1, BCInput.comb (scomp.toCombination.intersectionOfComb p.2.toCombination)))
    let inter ← c.get_combination GCInput.none_ none interComps
    some (mkRat (inter.length : Int) c.length)

/-- Claim C10: a `LotteryCombination` with an empty component mapping
reports `combinations == 0` (the accessor special-cases the empty mapping
instead of returning the empty product 1), `rank == 0`, `length == 0` and
`values == []`, whatever the winning-rank table is. -/
theorem claim_C10_empty_composite (wr : WinningRanks) :
    (LotteryCombination.mk [] wr).combinations = 0
    ∧ (LotteryCombination.mk [] wr).rank = some 0
    ∧ (LotteryCombination.mk [] wr).length = 0
    ∧ (LotteryCombination.mk [] wr).values = []
    ∧ (0 : Nat) ≠ 1 :=
  ⟨rfl, rfl, rfl, rfl, by omega⟩

/-- Claim C7 counterexample: `LotteryCombination.equals` never compares the
number of components — the `zip` in the source truncates to the shorter
list.  For `c` with components `a = [1, 2]` and `b = []` (total length 2),
the sparse query `equals(a=[1, 2])` resolves to a combination with a single
component and total length 2, and `equals` returns `True` even though the
resolved combination has fewer components than `c`. -/
theorem claim_C7_counterexample :
    (do
      let a ← BoundCombination.init (BCInput.vals [1, 2]) none (some 1) (some 10)
        (some 2) none
      let b ← BoundCombination.init (BCInput.vals []) none (some 1) (some 10)
        (some 1) none
      let c := LotteryCombination.mk [(0, a), (1, b)] []
      let e ← c.equals GCInput.none_ [(0, BCInput.vals [1, 2])]
      let other ← c.get_combination GCInput.none_ none [(0, BCInput.vals [1, 2])]
      some (e, c.components.length, other.components.length))
      = some (true, 2, 1)
    ∧ (2 : Nat) ≠ 1 := by decide

/-- Claim C7 (amended): `equals` returns `True` iff the resolved combination
has the same total length as `c` and either both are empty or every zipped
pair of components — up to the shorter of the two component lists — has the
same name and equal component values (the other component's values re-based
to the self component's start).  Identical component count is NOT required:
a resolved combination with fewer components can be equal when the total
lengths coincide. -/
theorem claim_C7_equals_characterization (c : LotteryCombination) (g : GCInput)
    (ov : List (Nat × BCInput)) (other : LotteryCombination)
    (hres : c.get_combination g none ov = some other) :
    c.equals g ov = some true
      ↔ other.length = c.length
        ∧ (c.length = 0
           ∨ ∀ pq ∈ c.components.zip other.components,
               pq.1.1 = pq.2.1 ∧ pq.1.2.values = pq.2.2.get_values pq.1.2.start) := by
  rw [LotteryCombination.equals, hres]
  simp only [Option.bind_eq_bind, Option.some_bind]
  by_cases hlen : other.length = c.length
  · rw [if_neg (by omega)]
    by_cases hzero : c.length = 0
    · rw [if_pos ⟨by omega, hzero⟩]
      simp [hlen, hzero]
    · rw [if_neg (by omega)]
      constructor
      · intro h
        refine ⟨hlen, Or.inr fun pq hpq => ?_⟩
        have hall : (c.components.zip other.components).all
            (fun pq => componentPairEq pq.1 pq.2) = true := by
          exact Option.some_injective _ h
        have h2 := List.all_eq_true.mp hall pq hpq
        rw [componentPairEq, Bool.and_eq_true, beq_iff_eq, beq_iff_eq] at h2
        exact h2
      · rintro ⟨-, h | h⟩
        · exact absurd h hzero
        · have hall : (c.components.zip other.components).all
              (fun pq => componentPairEq pq.1 pq.2) = true :=
            List.all_eq_true.mpr fun pq hpq => by
              rw [componentPairEq, Bool.and_eq_true, beq_iff_eq, beq_iff_eq]
              exact h pq hpq
          rw [hall]
  · rw [if_pos (by omega)]
    simp [hlen]

/-- Witness for the amended C7 at the empty composite. -/
theorem claim_C7_equals_characterization_witness :
    (LotteryCombination.mk [] []).get_combination GCInput.none_ none []
        = some (LotteryCombination.mk [] [])
    ∧ ((LotteryCombination.mk [] []).equals GCInput.none_ [] = some true
        ↔ (LotteryCombination.mk [] []).length = (LotteryCombination.mk [] []).length
          ∧ ((LotteryCombination.mk [] []).length = 0
             ∨ ∀ pq ∈ (LotteryCombination.mk [] []).components.zip
                  (LotteryCombination.mk [] []).components,
                 pq.1.1 = pq.2.1 ∧ pq.1.2.values = pq.2.2.get_values pq.1.2.start)) :=
  ⟨rfl, claim_C7_equals_characterization (LotteryCombination.mk [] []) GCInput.none_ []
    (LotteryCombination.mk [] []) rfl⟩

/-- Claim C9 counterexample: `copy` evaluates `components.get(name) or
values`, so a falsy override (here the empty value list) is silently
ignored and the original component is kept, instead of the component being
rebuilt from the override value. -/
theorem claim_C9_counterexample :
    (do
      let a ← BoundCombination.init (BCInput.vals [1, 2]) none (some 1) (some 10)
        (some 2) none
      let c := LotteryCombination.mk [(0, a)] []
      let c' ← c.copy none [(0, CopyArg.vals [])]
      some (c'.get_component_values 0))
      = some [1, 2]
    ∧ ([1, 2] : List Int) ≠ [] := by decide

lemma mapM_option_eq_map {α β : Type} (f : α → Option β) (g : α → β) :
    ∀ (l : List α), (∀ p ∈ l, f p = some (g p)) → l.mapM f = some (l.map g)
  | [], _ => rfl
  | p :: rest, h => by
    have ih := mapM_option_eq_map f g rest (fun q hq => h q (List.mem_cons_of_mem p hq))
    rw [List.mapM_cons, h p (List.mem_cons_self p rest), ih]
    rfl

lemma lookup_map_keyed {β γ : Type} (h : Nat → β → γ) (name : Nat) :
    ∀ (l : List (Nat × β)),
      (l.map (fun p => (p.1, h p.1 p.2))).lookup name = (l.lookup name).map (h name)
  | [] => rfl
  | (k, v) :: rest => by
    by_cases hk : name = k
    · subst hk
      simp [List.lookup]
    · have hbeq : (name == k) = false := by simpa using hk
      simp only [List.map_cons, List.lookup, hbeq]
      exact lookup_map_keyed h name rest

/-- The value `copy` retains for an existing component `orig` named `name`:
the override when present and truthy, else the original
(`components.get(name) or values` in the source). -/
def copyValue (ov : List (Nat × BoundCombination)) (name : Nat)
    (orig : BoundCombination) : BoundCombination :=
  match ov.lookup name with
  | some b => if b.vals.card != 0 then b else orig
  | none => orig

/-- Claim C9 (amended): for component-valued overrides, `copy` keeps every
existing component name in order and carries the winning-rank table (unless
explicitly replaced); an override whose value is truthy (non-empty)
replaces the matching component as-is, while a falsy override (an empty
component — and likewise `[]`, `0` or `None` in the source) is ignored and
the original component kept; override names that do not belong to the
combination are dropped. -/
theorem claim_C9_copy_contract (c : LotteryCombination) (wr : Option WinningRanks)
    (ov : List (Nat × BoundCombination)) :
    ∃ c', c.copy wr (ov.map (fun p => (p.1, CopyArg.comb p.2))) = some c'
      ∧ c'.components.map Prod.fst = c.components.map Prod.fst
      ∧ c'.winningRanks = wr.getD c.winningRanks
      ∧ (∀ name b, ov.lookup name = some b → b.vals ≠ ∅ →
           c'.components.lookup name = (c.components.lookup name).map (fun _ => b))
      ∧ (∀ name b, ov.lookup name = some b → b.vals = ∅ →
           c'.components.lookup name = c.components.lookup name)
      ∧ (∀ name, ov.lookup name = none →
           c'.components.lookup name = c.components.lookup name) := by
  have hmapM : c.components.mapM (fun p =>
      match (ov.map (fun p => (p.1, CopyArg.comb p.2))).lookup p.1 with
      | some v =>
          if v.truthy then
            (match v with
             | CopyArg.comb b => some (p.1, b)
             | _ => none)
          else some p
      | none => some p)
      = some (c.components.map (fun p => (p.1, copyValue ov p.1 p.2))) := by
    apply mapM_option_eq_map
    intro p _
    rw [lookup_map_keyed (fun _ b => CopyArg.comb b) p.1 ov]
    rw [copyValue]
    cases hov : ov.lookup p.1 with
    | none => rfl
    | some b =>
        rw [Option.map_some']
        show (if (CopyArg.comb b).truthy then some (p.1, b) else some p)
          = some (p.1, if b.vals.card != 0 then b else p.2)
        rw [show (CopyArg.comb b).truthy = (b.vals.card != 0) from rfl]
        by_cases hb : (b.vals.card != 0) = true
        · rw [if_pos hb, if_pos hb]
        · rw [if_neg hb, if_neg hb]
  have hlook : ∀ name,
      (c.components.map (fun p => (p.1, copyValue ov p.1 p.2))).lookup name
        = (c.components.lookup name).map (copyValue ov name) :=
    fun name => lookup_map_keyed (copyValue ov) name c.components
  refine ⟨⟨c.components.map (fun p => (p.1, copyValue ov p.1 p.2)),
    wr.getD c.winningRanks⟩, ?_, ?_, rfl, ?_, ?_, ?_⟩
  · rw [LotteryCombination.copy, hmapM]
    rfl
  · rw [List.map_map]
    rfl
  · intro name b hov hb
    show (c.components.map (fun p => (p.1, copyValue ov p.1 p.2))).lookup name = _
    rw [hlook name]
    cases c.components.lookup name with
    | none => rfl
    | some orig =>
        rw [Option.map_some', Option.map_some']
        simp only [copyValue, hov]
        rw [if_pos (by simpa [Finset.card_eq_zero] using hb)]
  · intro name b hov hb
    show (c.components.map (fun p => (p.1, copyValue ov p.1 p.2))).lookup name = _
    rw [hlook name]
    cases c.components.lookup name with
    | none => rfl
    | some orig =>
        rw [Option.map_some']
        simp only [copyValue, hov]
        rw [if_neg (by simp [hb])]
  · intro name hov
    show (c.components.map (fun p => (p.1, copyValue ov p.1 p.2))).lookup name = _
    rw [hlook name]
    cases c.components.lookup name with
    | none => rfl
    | some orig =>
        rw [Option.map_some']
        simp only [copyValue, hov]

/-- Witness for the amended C9 at a concrete combination and override
table. -/
theorem claim_C9_copy_contract_witness :
    ∃ c', (LotteryCombination.mk [] []).copy none
        (([] : List (Nat × BoundCombination)).map (fun p => (p.1, CopyArg.comb p.2)))
        = some c'
      ∧ c'.components.map Prod.fst
          = (LotteryCombination.mk [] []).components.map Prod.fst
      ∧ c'.winningRanks = Option.getD none (LotteryCombination.mk [] []).winningRanks
      ∧ (∀ name b, ([] : List (Nat × BoundCombination)).lookup name = some b →
           b.vals ≠ ∅ →
           c'.components.lookup name
             = ((LotteryCombination.mk [] []).components.lookup name).map (fun _ => b))
      ∧ (∀ name b, ([] : List (Nat × BoundCombination)).lookup name = some b →
           b.vals = ∅ →
           c'.components.lookup name
             = (LotteryCombination.mk [] []).components.lookup name)
      ∧ (∀ name, ([] : List (Nat × BoundCombination)).lookup name = none →
           c'.components.lookup name
             = (LotteryCombination.mk [] []).components.lookup name) :=
  claim_C9_copy_contract (LotteryCombination.mk [] []) none []

lemma mergeDicts_nil (base : List (Nat × BoundCombination)) :
    mergeDicts base [] = base := by
  rw [mergeDicts]
  simp

lemma get_combination_self (x : LotteryCombination) :
    x.get_combination (GCInput.lot x) none [] = some x := by
  have h1 : x.get_combination (GCInput.lot x) none []
      = some ⟨mergeDicts x.components [], x.winningRanks⟩ := rfl
  rw [h1, mergeDicts_nil]

lemma componentPairEq_self (p : Nat × BoundCombination) :
    componentPairEq p p = true := by
  rw [componentPairEq, Combination.get_values, if_pos rfl]
  simp

lemma zip_self_all (l : List (Nat × BoundCombination)) :
    (l.zip l).all (fun pq => componentPairEq pq.1 pq.2) = true := by
  induction l with
  | nil => rfl
  | cons p rest ih =>
      rw [List.zip_cons_cons, List.all_cons, componentPairEq_self p, ih]
      rfl

/-- Claim C8: similarity boundaries and the sparse-query example.
(i) an empty combination compared with an empty one has similarity 1;
(ii) similarity is 0 when exactly one side is empty;
(iii) `x.similarity(x) = 1` for every `x`;
(iv) for components `numbers = [1,2,3,4,5]` (5-arity) and
`extra = [6,7,8]` (3-arity, total length 8), the sparse query
`similarity(numbers=[1,2,3,4,6])` equals `4/8` — only the queried
component's intersection feeds the numerator. -/
theorem claim_C8_similarity :
    ((LotteryCombination.mk [] []).similarity
        (GCInput.lot (LotteryCombination.mk [] [])) [] = some 1)
    ∧ (∀ (c : LotteryCombination) (g : GCInput) (ov : List (Nat × BCInput))
         (other : LotteryCombination),
         c.get_combination g none ov = some other →
         ((c.length = 0 ∧ other.length ≠ 0) ∨ (c.length ≠ 0 ∧ other.length = 0)) →
         c.similarity g ov = some 0)
    ∧ (∀ x : LotteryCombination, x.similarity (GCInput.lot x) [] = some 1)
    ∧ (do
        let numbers ← BoundCombination.init (BCInput.vals [1, 2, 3, 4, 5]) none
          (some 1) (some 50) (some 5) (some 2118760)
        let extra ← BoundCombination.init (BCInput.vals [6, 7, 8]) none
          (some 1) (some 12) (some 3) (some 220)
        let c := LotteryCombination.mk [(0, numbers), (1, extra)] []
        c.similarity GCInput.none_ [(0, BCInput.vals [1, 2, 3, 4, 6])])
        = some (mkRat 4 8) := by
  refine ⟨by decide, ?_, ?_, by decide⟩
  · intro c g ov other hres h
    rw [LotteryCombination.similarity, hres]
    simp only [Option.bind_eq_bind, Option.some_bind]
    rw [if_neg (by omega), if_pos (by omega)]
  · intro x
    rw [LotteryCombination.similarity, get_combination_self x]
    simp only [Option.bind_eq_bind, Option.some_bind]
    by_cases h0 : x.length = 0
    · rw [if_pos ⟨h0, h0⟩]
    · rw [if_neg (by omega), if_neg (by omega), if_pos (zip_self_all x.components)]

/-- A one-component non-empty fixture used by the C8 witness. -/
def fixtureY : LotteryCombination :=
  ⟨[(0, { toCombination := Combination.init [1] none (some 1)
          endv := 10, count := 1, combinations := 10 })], []⟩

/-- Witness for the one-side-empty part of C8: the empty composite compared
with the non-empty `fixtureY` has similarity 0. -/
theorem claim_C8_similarity_witness :
    (LotteryCombination.mk [] []).get_combination (GCInput.lot fixtureY) none []
        = some fixtureY
    ∧ (((LotteryCombination.mk [] []).length = 0 ∧ fixtureY.length ≠ 0)
       ∨ ((LotteryCombination.mk [] []).length ≠ 0 ∧ fixtureY.length = 0))
    ∧ (LotteryCombination.mk [] []).similarity (GCInput.lot fixtureY) [] = some 0 :=
  ⟨rfl, Or.inl ⟨rfl, by decide⟩,
    claim_C8_similarity.2.1 (LotteryCombination.mk [] []) (GCInput.lot fixtureY) []
      fixtureY rfl (Or.inl ⟨rfl, by decide⟩)⟩

/-! ## Claim C2: mixed-radix composition -/

/-- Specification-side formula of §3(b) of the spec: the combined rank is
`Σ component.rank × Π (combinations of components declared after it)`, the
first component being most significant.  Input: `(rank, combinations)`
pairs in declaration order. -/
def specMixedRadixRank : List (Int × Nat) → Int
  | [] => 0
  | (r, _) :: rest => r * ((rest.map Prod.snd).prod : Int) + specMixedRadixRank rest

/-- Helper: the same value computed from the last-declared component first
(the order in which `LotteryCombination.rank` folds). -/
def revRadix : List (Int × Nat) → Int
  | [] => 0
  | (r, cb) :: rest => r + (cb : Int) * revRadix rest

lemma revRadix_append : ∀ (l : List (Int × Nat)) (r : Int) (cb : Nat),
    revRadix (l ++ [(r, cb)]) = revRadix l + r * ((l.map Prod.snd).prod : Int)
  | [], r, cb => by simp [revRadix]
  | (r0, c0) :: l, r, cb => by
    have ih := revRadix_append l r cb
    show r0 + (c0 : Int) * revRadix (l ++ [(r, cb)])
        = (r0 + (c0 : Int) * revRadix l) + r * ((((r0, c0) :: l).map Prod.snd).prod : Int)
    rw [ih, List.map_cons, List.prod_cons]
    push_cast
    ring

lemma specMixedRadixRank_eq_revRadix : ∀ (ps : List (Int × Nat)),
    specMixedRadixRank ps = revRadix ps.reverse
  | [] => rfl
  | (r, cb) :: rest => by
    have ih := specMixedRadixRank_eq_revRadix rest
    rw [specMixedRadixRank, ih, List.reverse_cons, revRadix_append,
      List.map_reverse, List.prod_reverse]
    ring

lemma rankFoldRev_spec : ∀ (l : List BoundCombination) (ps : List (Int × Nat))
    (acc : Int) (mult : Nat),
    List.Forall₂ (fun b p => b.rank = some p.1 ∧ b.combinations = p.2) l ps →
    rankFoldRev l acc mult = some (acc + (mult : Int) * revRadix ps)
  | [], [], acc, mult, _ => by simp [rankFoldRev, revRadix]
  | b :: rest, (r, cb) :: ps, acc, mult, h => by
    rcases h with _ | ⟨⟨hr, hcb⟩, hrest⟩
    have ih := rankFoldRev_spec rest ps (acc + r * (mult : Int)) (mult * cb) hrest
    rw [rankFoldRev, hr]
    simp only [Option.bind_eq_bind, Option.some_bind]
    rw [hcb, ih, revRadix]
    congr 1
    push_cast
    ring

/-- `get_combination_from_rank` succeeds on non-negative arguments and
returns a list of exactly `length` values. -/
lemma unrank_total (r len off : Int) (h0 : 0 ≤ r) (h1 : 0 ≤ len) :
    ∃ l, get_combination_from_rank r len off = some l ∧ l.length = len.toNat := by
  rw [get_combination_from_rank, if_neg (by omega), if_neg (by omega)]
  by_cases hz : len = 0
  · rw [if_pos hz]
    exact ⟨[], rfl, by rw [hz]; rfl⟩
  · rw [if_neg hz]
    by_cases ho : len = 1
    · rw [if_pos ho]
      exact ⟨[r + off], rfl, by rw [ho]; rfl⟩
    · rw [if_neg ho]
      refine ⟨_, rfl, ?_⟩
      rw [peel_length]
      omega

/-- `copy(values=<int digit>)` with non-negative digit and positive arity:
the copy succeeds, stores the digit as the new rank, and keeps
`combinations` and `count`. -/
lemma copy_rnk_spec (comp : BoundCombination) (d : Int) (hd : 0 ≤ d)
    (hcount : 1 ≤ comp.count) :
    ∃ nc, comp.copy (some (BCInput.rnk d)) none none none none none = some nc
      ∧ nc.rank = some d ∧ nc.combinations = comp.combinations := by
  obtain ⟨l, hl, hlen⟩ := unrank_total d (comp.count : Int) comp.start hd (by omega)
  have hlen' : l.length = comp.count := by omega
  have hvn : (l.take comp.count).map (clamp comp.start comp.endv) ≠ [] := by
    intro he
    have h2 := congrArg List.length he
    rw [List.length_map, List.length_take, hlen'] at h2
    simp at h2
    omega
  have hcopy : comp.copy (some (BCInput.rnk d)) none none none none none
      = BoundCombination.init (BCInput.rnk d) none (some comp.start) (some comp.endv)
          (some comp.count) (some comp.combinations) := by
    rw [BoundCombination.copy]
    simp only [Option.getD_none, Option.isNone_none]
    rw [if_pos (by simp)]
  have hinit : BoundCombination.init (BCInput.rnk d) none (some comp.start)
        (some comp.endv) (some comp.count) (some comp.combinations)
      = some { toCombination :=
                 Combination.init ((l.take comp.count).map (clamp comp.start comp.endv))
                   (some ((none : Option Int).getD d)) (some comp.start)
               endv := comp.endv
               count := comp.count
               combinations := comp.combinations } := by
    rw [BoundCombination.init]
    simp only [Option.getD_some, Option.some_bind, Option.bind_eq_bind]
    rw [hl]
    rfl
  refine ⟨_, hcopy.trans hinit, ?_, rfl⟩
  show (Combination.init ((l.take comp.count).map (clamp comp.start comp.endv))
      (some ((none : Option Int).getD d)) (some comp.start)).rank = some d
  rw [Combination.rank, Combination.init]
  simp only [if_neg hvn]
  rfl

lemma forall₂_proj : ∀ {l : List (Nat × BoundCombination)} {ps : List (Int × Nat)},
    List.Forall₂ (fun (p : Nat × BoundCombination) (q : Int × Nat) =>
      p.2.rank = some q.1 ∧ p.2.combinations = q.2) l ps →
    l.map (fun p => p.2.combinations) = ps.map Prod.snd := by
  intro l ps h
  induction h with
  | nil => rfl
  | cons h1 _ ih => rw [List.map_cons, List.map_cons, h1.2, ih]

/-- The int branch of `get_combination` decodes its argument by repeated
divmod over the reversed components, and the resulting components fold back
to the original rank: if `0 ≤ r` is below the product of the arities,
`decodeRev` succeeds and `rankFoldRev` over the decoded components (with any
accumulator and multiplier) recovers `acc + mult * r`. -/
lemma decodeRev_rank : ∀ (l : List (Nat × BoundCombination)) (r acc : Int) (mult : Nat),
    0 ≤ r → r < ((((l.map (fun p => p.2.combinations)).prod : Nat) : Int)) →
    (∀ p ∈ l, 1 ≤ p.2.count) →
    ∃ out, decodeRev r l = some out
      ∧ rankFoldRev (out.map (fun p => p.2)) acc mult = some (acc + (mult : Int) * r)
  | [], r, acc, mult, h0, h1, _ => by
    have hr : r = 0 := by
      simp only [List.map_nil, List.prod_nil, Nat.cast_one] at h1
      omega
    subst hr
    exact ⟨[], rfl, by simp [rankFoldRev]⟩
  | (name, comp) :: rest, r, acc, mult, h0, h1, hc => by
    rw [List.map_cons, List.prod_cons] at h1
    have hcb : 0 < comp.combinations := by
      rcases Nat.eq_zero_or_pos comp.combinations with hz | hp
      · rw [hz] at h1
        simp at h1
        omega
      · exact hp
    have hrp : 0 < (rest.map (fun p => p.2.combinations)).prod := by
      rcases Nat.eq_zero_or_pos ((rest.map (fun p => p.2.combinations)).prod) with hz | hp
      · rw [hz] at h1
        simp at h1
        omega
      · exact hp
    have hne : (comp.combinations : Int) ≠ 0 := by exact_mod_cast hcb.ne'
    have hmod0 : 0 ≤ r % (comp.combinations : Int) := Int.emod_nonneg r hne
    obtain ⟨nc, hnc, hncr, hnccb⟩ :=
      copy_rnk_spec comp (r % (comp.combinations : Int)) hmod0 (hc (name, comp) (by simp))
    have hdiv0 : 0 ≤ r / (comp.combinations : Int) :=
      Int.ediv_nonneg h0 (by exact_mod_cast hcb.le)
    have hdivlt : r / (comp.combinations : Int)
        < ((((rest.map (fun p => p.2.combinations)).prod : Nat) : Int)) := by
      rw [Int.ediv_lt_iff_lt_mul (by exact_mod_cast hcb)]
      calc r < ((comp.combinations * (rest.map (fun p => p.2.combinations)).prod : Nat) : Int) :=
            h1
        _ = _ := by push_cast; ring
    obtain ⟨out', hout', hrank'⟩ :=
      decodeRev_rank rest (r / (comp.combinations : Int))
        (acc + r % (comp.combinations : Int) * (mult : Int)) (mult * comp.combinations)
        hdiv0 hdivlt (fun p hp => hc p (by simp [hp]))
    refine ⟨(name, nc) :: out', ?_, ?_⟩
    · rw [decodeRev]
      simp only [Option.bind_eq_bind]
      rw [hnc]
      simp only [Option.some_bind]
      rw [hout']
      rfl
    · show rankFoldRev (nc :: out'.map (fun p => p.2)) acc mult = _
      rw [rankFoldRev, hncr]
      simp only [Option.bind_eq_bind, Option.some_bind]
      rw [hnccb, hrank']
      congr 1
      have hme := Int.emod_add_ediv r (comp.combinations : Int)
      push_cast
      linear_combination (mult : Int) * hme

/-- Unfolding of the int branch of `get_combination` with no keyword
overrides: the decoded (reversed) components are re-reversed and the
winning-rank table is carried over. -/
lemma get_combination_rnk (c : LotteryCombination) (r : Int)
    (out : List (Nat × BoundCombination))
    (hdec : decodeRev r c.components.reverse = some out) :
    c.get_combination (GCInput.rnk r) none []
      = some { components := out.reverse, winningRanks := c.winningRanks } := by
  have key : c.get_combination (GCInput.rnk r) none []
      = ((decodeRev r c.components.reverse).bind (fun dec =>
            some (mergeDicts dec.reverse [], (none : Option WinningRanks)))).bind
          (fun merged => some { components := merged.1,
                                winningRanks := merged.2.getD c.winningRanks }) := rfl
  rw [key, hdec]
  simp only [Option.some_bind, Option.getD_none]
  rw [mergeDicts_nil]

/-- The EuroMillions composite of the spec's §8 example, built exactly as
`EuromillionsCombination('1,2,3,4,5_6,7')` does: a 5-from-50 component
holding `[1,2,3,4,5]` and a 2-from-12 component holding `[6,7]`, both with
`start = 1` and a defaulted `combinations`, with component names `0` for
`numbers` and `1` for `stars`. -/
def euroFixture : Option LotteryCombination := do
  let n ← BoundCombination.init (BCInput.vals [1, 2, 3, 4, 5]) none (some 1)
    (some 50) (some 5) none
  let s ← BoundCombination.init (BCInput.vals [6, 7]) none (some 1)
    (some 12) (some 2) none
  some { components := [(0, n), (1, s)], winningRanks := [] }

/-- Claim C2: mixed-radix composition.  (i) For a non-empty composite whose
components have defined ranks `qᵢ.1` and arities `qᵢ.2`, the combined rank
is `Σ rankᵢ · Π (arities of the components declared after i)` (first
component most significant, stated via `specMixedRadixRank`) and the
combined `combinations` is the product of the arities; (ii) for every
`0 ≤ r < combinations` (components of positive `count`), `get_combination(r)`
succeeds and yields a combination whose rank is `r`; (iii) the EuroMillions
composite has `combinations = 139838160 = C(50,5)·C(12,2)`, component ranks
`numbers.rank = 0` and `stars.rank = 20`, composite rank
`0 * 66 + 20`, and decoding that rank reproduces `[1,2,3,4,5]` / `[6,7]`
(with rank 20 again). -/
theorem claim_C2_mixed_radix :
    (∀ (c : LotteryCombination) (ps : List (Int × Nat)), c.components ≠ [] →
      List.Forall₂ (fun (p : Nat × BoundCombination) (q : Int × Nat) =>
        p.2.rank = some q.1 ∧ p.2.combinations = q.2) c.components ps →
      c.rank = some (specMixedRadixRank ps)
        ∧ c.combinations = (ps.map Prod.snd).prod)
    ∧ (∀ (c : LotteryCombination) (r : Int), 0 ≤ r → r < (c.combinations : Int) →
      (∀ p ∈ c.components, 1 ≤ p.2.count) →
      ∃ c', c.get_combination (GCInput.rnk r) none [] = some c' ∧ c'.rank = some r)
    ∧ euroFixture.map (fun c => c.combinations) = some 139838160
    ∧ euroFixture.bind (fun c => (c.components.lookup 0).bind (fun b => b.rank)) = some 0
    ∧ euroFixture.bind (fun c => (c.components.lookup 1).bind (fun b => b.rank)) = some 20
    ∧ euroFixture.bind (fun c => c.rank) = some (0 * 66 + 20)
    ∧ (euroFixture.bind (fun c =>
          c.get_combination (GCInput.rnk (0 * 66 + 20)) none [])).map
        (fun c' => (c'.get_component_values 0, c'.get_component_values 1, c'.rank))
      = some ([1, 2, 3, 4, 5], [6, 7], some 20) := by
  refine ⟨?_, ?_, ?_⟩
  · intro c ps hne hf
    constructor
    · rw [LotteryCombination.rank]
      have hf2 : List.Forall₂ (fun (b : BoundCombination) (q : Int × Nat) =>
          b.rank = some q.1 ∧ b.combinations = q.2)
          (c.components.map (fun p => p.2)).reverse ps.reverse := by
        rw [List.forall₂_reverse_iff, List.forall₂_map_left_iff]
        exact hf
      rw [rankFoldRev_spec _ ps.reverse 0 1 hf2, specMixedRadixRank_eq_revRadix]
      congr 1
      ring
    · rw [LotteryCombination.combinations,
        if_neg (by simpa [List.isEmpty_iff] using hne), forall₂_proj hf]
  · intro c r h0 h1 hcnt
    have hne : c.components ≠ [] := by
      intro he
      rw [LotteryCombination.combinations, he] at h1
      simp at h1
      omega
    have h1' : r < (((c.components.reverse.map (fun p => p.2.combinations)).prod : Nat) : Int) := by
      rw [List.map_reverse, List.prod_reverse]
      rw [LotteryCombination.combinations,
        if_neg (by simpa [List.isEmpty_iff] using hne)] at h1
      exact h1
    obtain ⟨out, hdec, hrank⟩ := decodeRev_rank c.components.reverse r 0 1 h0 h1'
      (fun p hp => hcnt p (List.mem_reverse.mp hp))
    refine ⟨_, get_combination_rnk c r out hdec, ?_⟩
    rw [LotteryCombination.rank]
    show rankFoldRev ((out.reverse.map (fun p => p.2)).reverse) 0 1 = some r
    rw [List.map_reverse, List.reverse_reverse, hrank]
    congr 1
    ring
  · have h50 : Nat.choose 50 5 = 2118760 := by
      rw [Nat.choose_eq_descFactorial_div_factorial]
      rfl
    have hN := init_vals_shape [1, 2, 3, 4, 5] 1 50 5 (by norm_num)
    rw [show (((50 : Int) - 1 + 1).toNat) = 50 from by decide, h50] at hN
    have hS := init_vals_shape [6, 7] 1 12 2 (by norm_num)
    rw [show (((12 : Int) - 1 + 1).toNat) = 12 from by decide,
      show Nat.choose 12 2 = 66 from by decide] at hS
    have hfix : euroFixture = some
        { components :=
            [(0, { toCombination :=
                     Combination.init (([1, 2, 3, 4, 5].take 5).map (clamp 1 50)) none (some 1)
                   endv := 50
                   count := 5
                   combinations := 2118760 }),
             (1, { toCombination :=
                     Combination.init (([6, 7].take 2).map (clamp 1 12)) none (some 1)
                   endv := 12
                   count := 2
                   combinations := 66 })]
          winningRanks := [] } := by
      rw [euroFixture, hN, hS]
      simp only [Option.bind_eq_bind, Option.some_bind]
    refine ⟨?_, ?_, ?_, ?_, ?_⟩ <;> rw [hfix] <;> decide

/-- Witness for claim C2: the unrank/rank part applied at a one-component
composite (2-from-10 at start 1, 45 combinations) with rank 7. -/
def smallComposite : LotteryCombination :=
  { components := [(0, { toCombination := Combination.init [1, 2] none (some 1)
                         endv := 10
                         count := 2
                         combinations := 45 })]
    winningRanks := [] }

theorem claim_C2_mixed_radix_witness :
    (0 : Int) ≤ 7 ∧ (7 : Int) < (smallComposite.combinations : Int)
    ∧ (∀ p ∈ smallComposite.components, 1 ≤ p.2.count)
    ∧ ∃ c', smallComposite.get_combination (GCInput.rnk 7) none [] = some c'
        ∧ c'.rank = some 7 :=
  ⟨by decide, by decide, by decide,
    claim_C2_mixed_radix.2.1 smallComposite 7 (by decide) (by decide) (by decide)⟩

end Pactole

